import Mathlib

/-!
# Verification of the lerche capture backend (src/src-tauri/src/lib.rs)

This file shallowly embeds the capture-transform-deliver pipeline of the
repository: the pure pixel transform `process_image`, the acquisition loop
body of `start_capture` (as a step function over explicit tick inputs), the
single-slot `FrameBuffer` store, and the query command `get_frame_data`.

Machine integers (`u32`) are modelled as `ℕ` with explicit reduction
modulo `2 ^ 32` where the Rust arithmetic can wrap (release-mode wrapping
semantics).  The Rust source computes its two sampling steps through `f32`
arithmetic (`(crop_width as f32 / new_width as f32).ceil() as u32`), so we
include an exact model of IEEE-754 binary32 rounding (round to nearest,
ties to even) for the nonnegative values that arise here.  To keep every
definition kernel-executable, the float model works on numerator /
denominator pairs of naturals; rationals appear only in proofs.
-/

/-- The modulus `2 ^ 32` of `u32` arithmetic. -/
def u32Mod : ℕ := 4294967296

/-- Rust `as u32` cast from a signed value (two's-complement wrap), used
for `window_pos.x as u32`. -/
def toU32 (z : ℤ) : ℕ := (z % (u32Mod : ℤ)).toNat

/-! ## Exact binary32 model (nonnegative range)

A positive real is rounded to binary32 by finding the binade exponent `e`
with `2 ^ e ≤ q` (largest such `e`), scaling onto the 24-bit significand
grid of spacing `2 ^ e / 2 ^ 23`, and rounding to the nearest grid point
with ties to even.  All values reaching this model are `u32` values or
quotients of such, hence lie in `[1, 2 ^ 33)` whenever nonzero, so
scanning exponents `0..33` suffices.  A fraction is a pair `(a, b)`
meaning `a / b` with `b > 0`. -/

/-- Round the fraction `a / b` to the nearest integer, ties to even. -/
def rneN (a b : ℕ) : ℕ :=
  let f := a / b
  let r := a % b
  if 2 * r < b then f
  else if b < 2 * r then f + 1
  else if f % 2 = 0 then f else f + 1

/-- Largest `e < 34` with `2 ^ e ≤ a / b` (0 if none): the binade exponent
of `a / b` for the magnitudes occurring in this program. -/
def expOfN (a b : ℕ) : ℕ :=
  (List.range 34).foldl (fun acc e => if 2 ^ e * b ≤ a then e else acc) 0

/-- Round the fraction `a / b` (with `b > 0`) to the binary32 grid, round
to nearest, ties to even.  The result is again a fraction; its denominator
is fixed to `2 ^ 23`.  Faithful to IEEE-754 single precision for arguments
in `[1, 2 ^ 33)` and for `0`, which covers every value this program
produces. -/
def round32N (a b : ℕ) : ℕ × ℕ :=
  let e := expOfN a b
  (rneN (a * 2 ^ 23) (b * 2 ^ e) * 2 ^ e, 2 ^ 23)

/-- Model of `(a as f32 / b as f32).ceil() as u32` for `a b : u32`:
binary32 conversion of both operands, correctly rounded binary32 division,
`ceil` (exact on these magnitudes), and the saturating float-to-int cast.
`x / +0.0` is `+inf` for `x > 0` (cast saturates to `u32::MAX`) and NaN
for `x = 0` (cast yields 0). -/
def ceilDivF32 (a b : ℕ) : ℕ :=
  if b = 0 then (if a = 0 then 0 else u32Mod - 1)
  else
    let x := round32N a 1
    let y := round32N b 1
    let r := round32N (x.1 * y.2) (x.2 * y.1)
    min ((r.1 + r.2 - 1) / r.2) (u32Mod - 1)

/-- Exact integer ceiling of `a / b`: `⌈a / b⌉ = (a + b - 1) / b`.  This is
what the specification means by `ceil(region.width / new_width)`. -/
def natCeilDiv (a b : ℕ) : ℕ := (a + b - 1) / b

/-! ## The pixel transform `process_image` (lib.rs lines 52-89)

Rust signature:
`process_image(original: &[u8], orig_width, crop_x, crop_y, crop_width, crop_height, scale_factor: u32) -> Vec<u8>`.

`crop_width / scale_factor` is Rust integer division, which panics when
`scale_factor = 0`; the embedding returns `none` for that panic.  Slice
indexing `original[i]` is guarded by `src_idx + 3 < original.len()`, so we
translate it as `List.getD` with an arbitrary default byte `d`; the
independence of the result from `d` (proved below) is exactly the absence
of out-of-bounds reads.  The `u32` additions and multiplications that form
`src_x`, `src_y` and `src_idx` wrap modulo `2 ^ 32`. -/

/-- The four output bytes contributed by destination pixel `(x, y)`, or
`[]` when the pixel is skipped: the body of the nested `for` loops. -/
def pixelChunk (d : ℕ) (original : List ℕ) (orig_width crop_x crop_y
    crop_width crop_height x_scale y_scale x y : ℕ) : List ℕ :=
  let src_x := (crop_x + x * x_scale) % u32Mod
  let src_y := (crop_y + y * y_scale) % u32Mod
  if src_x < (crop_x + crop_width) % u32Mod ∧
     src_y < (crop_y + crop_height) % u32Mod then
    let src_idx := ((src_y * orig_width + src_x) * 4) % u32Mod
    if src_idx + 3 < original.length then
      [original.getD (src_idx + 2) d,
       original.getD (src_idx + 1) d,
       original.getD src_idx d,
       original.getD (src_idx + 3) d]
    else []
  else []

/-- The function `process_image`, parameterised by the junk byte `d` returned by an
(unreachable) out-of-bounds read.  The nested `for` loops pushing onto
`downsampled` become nested left folds over `List.range`. -/
def processImageD (d : ℕ) (original : List ℕ) (orig_width crop_x crop_y
    crop_width crop_height scale_factor : ℕ) : Option (List ℕ) :=
  if scale_factor = 0 then none  -- `crop_width / scale_factor` panics
  else
    let new_width := crop_width / scale_factor
    let new_height := crop_height / scale_factor
    let x_scale := ceilDivF32 crop_width new_width
    let y_scale := ceilDivF32 crop_height new_height
    some ((List.range new_height).foldl (fun acc y =>
      (List.range new_width).foldl (fun acc2 x =>
        acc2 ++ pixelChunk d original orig_width crop_x crop_y
          crop_width crop_height x_scale y_scale x y) acc) [])

/-- The transform as the Rust source runs it (the default byte is never
read, as proved in the bounds theorem). -/
def process_image (original : List ℕ) (orig_width crop_x crop_y crop_width
    crop_height scale_factor : ℕ) : Option (List ℕ) :=
  processImageD 0 original orig_width crop_x crop_y crop_width crop_height
    scale_factor

/-! ## The frame store, the acquisition loop body and the query command

`FrameBuffer` is the single-slot store (lib.rs lines 12-18), created with
`Default` (all fields empty/zero).  The loop body of `start_capture`
(lines 120-187) is embedded as a step function over explicit tick inputs;
`Instant` timestamps become natural numbers counting whole seconds, so
`duration_since(last).as_secs() >= 1` becomes `1 ≤ now - last`. -/

structure FrameBuffer where
  data : List ℕ
  width : ℕ
  height : ℕ
  fps : ℕ
deriving Repr, DecidableEq

/-- The store before any write: `FrameBuffer::default()`. -/
def initFrameBuffer : FrameBuffer := ⟨[], 0, 0, 0⟩

/-- The query command `get_frame_data` (lib.rs lines 192-206): returns the stored tuple when
the data is nonempty and both dimensions are positive, otherwise the
`"No valid frame data available."` error. -/
def get_frame_data (b : FrameBuffer) : Except String (List ℕ × ℕ × ℕ × ℕ) :=
  if b.data ≠ [] ∧ 0 < b.width ∧ 0 < b.height then
    .ok (b.data, b.width, b.height, b.fps)
  else .error "No valid frame data available."

/-- The loop-local mutable state of `start_capture` together with the
shared frame store it writes. -/
structure LoopState where
  frame_counter : ℕ
  fps_counter : ℕ
  last_second : ℕ
  buffer : FrameBuffer
deriving Repr, DecidableEq

/-- The `start_capture` state on entering the loop: counters zero, timestamp
from `Instant::now()`, store untouched. -/
def initLoopState (t0 : ℕ) : LoopState := ⟨0, 0, t0, initFrameBuffer⟩

/-- External input consumed by one iteration of the capture loop:
the result of `acquire_next_frame_now`, of `texture_reader.get_data`, of
the two window-geometry calls, and the clock reading. -/
inductive TickInput where
  /-- The call `acquire_next_frame_now` returned `Err`; `fatal` holds exactly for
  `AccessLost` / `AccessDenied`. -/
  | acquireFail (fatal : Bool)
  /-- a texture arrived but `texture_reader.get_data` failed (`continue`). -/
  | texReadFail
  /-- a texture arrived and was read into `raw`; `descWidth` is
  `tex.desc().width`; `geom = some (x, y, w, h)` gives
  `outer_position` / `outer_size`, `none` models either call failing
  (the `?` then returns the error from `start_capture`); `now` is
  `Instant::now()` at the store write, in seconds. -/
  | frame (raw : List ℕ) (descWidth : ℕ) (geom : Option (ℤ × ℤ × ℕ × ℕ))
      (now : ℕ)
deriving Repr, DecidableEq

/-- Outcome of one loop iteration. -/
inductive TickResult where
  /-- loop again (successful iteration, transient failure, or `continue`). -/
  | next (s : LoopState)
  /-- Loop `break`: `start_capture` returns `Ok(())`. -/
  | exit (s : LoopState)
  /-- Propagation through `?`: `start_capture` returns `Err` (geometry failure). -/
  | fail (s : LoopState)
deriving Repr, DecidableEq

/-- The constant `let scale_factor = 4;` (lib.rs line 126). -/
def scaleFactorConst : ℕ := 4

/-- One iteration of the `loop` in `start_capture` (lib.rs lines 120-187):
acquire, read the texture, fetch geometry, run `process_image`, advance
the wrapping frame counter, bump the fps tick counter, write the store,
and publish the fps value when at least one second has elapsed. -/
def captureTick (s : LoopState) (t : TickInput) : TickResult :=
  match t with
  | .acquireFail fatal => if fatal then .exit s else .next s
  | .texReadFail => .next s
  | .frame raw descWidth geom now =>
    match geom with
    | none => .fail s
    | some (posx, posy, w, h) =>
      -- scale_factor = 4 ≠ 0, so `process_image` cannot hit its panic
      -- branch; `getD` only discharges the `Option`.
      let processed := (process_image raw descWidth (toU32 posx) (toU32 posy)
        w h scaleFactorConst).getD []
      let frame_counter := (s.frame_counter + 1) % u32Mod
      let fps_counter := (s.fps_counter + 1) % u32Mod
      let written : FrameBuffer :=
        { data := processed
          width := w / scaleFactorConst
          height := h / scaleFactorConst
          fps := if 1 ≤ now - s.last_second then fps_counter else s.buffer.fps }
      if 1 ≤ now - s.last_second then
        .next { frame_counter := frame_counter, fps_counter := 0,
                last_second := now, buffer := written }
      else
        .next { frame_counter := frame_counter, fps_counter := fps_counter,
                last_second := s.last_second, buffer := written }

/-- Run the loop on a finite input trace.  The flag reports how the loop
ended: `some true` for `break` (`start_capture` returns `Ok`), `some
false` for the `?`-propagated geometry error, `none` when the trace is
exhausted with the loop still running. -/
def runCapture (s : LoopState) (ts : List TickInput) :
    LoopState × Option Bool :=
  match ts with
  | [] => (s, none)
  | t :: rest =>
    match captureTick s t with
    | .next s2 => runCapture s2 rest
    | .exit s2 => (s2, some true)
    | .fail s2 => (s2, some false)

/-! ## Structural lemmas for the transform -/

/-- A left fold that appends one block per element is the concatenation of
the blocks: the bridge from the imperative push-loop to its row-major
description. -/
theorem foldl_append_eq (f : ℕ → List ℕ) (l : List ℕ) (init : List ℕ) :
    l.foldl (fun acc x => acc ++ f x) init = init ++ (l.map f).flatten := by
  induction l generalizing init with
  | nil => simp
  | cons a l ih => simp [ih, List.append_assoc]

/-- The transform output described pixel by pixel: the row-major
concatenation of the per-pixel chunks over the `nw × nh` destination
grid. -/
def imageBytes (d : ℕ) (original : List ℕ) (orig_width crop_x crop_y
    crop_width crop_height x_scale y_scale nw nh : ℕ) : List ℕ :=
  ((List.range nh).map (fun y =>
    ((List.range nw).map (fun x =>
      pixelChunk d original orig_width crop_x crop_y crop_width crop_height
        x_scale y_scale x y)).flatten)).flatten

/-- For a nonzero scale factor the transform succeeds and its output is
exactly the row-major concatenation of per-pixel chunks over the
`(crop_width / s) × (crop_height / s)` grid, with the `f32`-computed
sampling steps. -/
theorem processImageD_eq_imageBytes (d : ℕ) (original : List ℕ)
    (ow cx cy w h s : ℕ) (hs : s ≠ 0) :
    processImageD d original ow cx cy w h s =
      some (imageBytes d original ow cx cy w h
        (ceilDivF32 w (w / s)) (ceilDivF32 h (h / s)) (w / s) (h / s)) := by
  unfold processImageD imageBytes
  simp only [hs, if_false, foldl_append_eq, List.nil_append, Option.some_inj]

/-- Every per-pixel chunk holds at most the 4 bytes of one sample. -/
theorem pixelChunk_length_le (d : ℕ) (original : List ℕ)
    (ow cx cy w h xs ys x y : ℕ) :
    (pixelChunk d original ow cx cy w h xs ys x y).length ≤ 4 := by
  simp only [pixelChunk]
  split_ifs <;> simp

/-- An in-bounds `getD` ignores its default. -/
theorem getD_irrel (l : List ℕ) (n d₁ d₂ : ℕ) (h : n < l.length) :
    l.getD n d₁ = l.getD n d₂ := by
  rw [List.getD_eq_getElem l d₁ h, List.getD_eq_getElem l d₂ h]

/-- The per-pixel chunk does not depend on the junk byte: every slice
index it uses is guarded to be in bounds. -/
theorem pixelChunk_d_irrel (d₁ d₂ : ℕ) (original : List ℕ)
    (ow cx cy w h xs ys x y : ℕ) :
    pixelChunk d₁ original ow cx cy w h xs ys x y =
      pixelChunk d₂ original ow cx cy w h xs ys x y := by
  simp only [pixelChunk]
  split_ifs with h1 h2
  · simp only [List.cons.injEq, and_true]
    exact ⟨getD_irrel _ _ _ _ (by omega), getD_irrel _ _ _ _ (by omega),
      getD_irrel _ _ _ _ (by omega), getD_irrel _ _ _ _ (by omega)⟩
  · rfl
  · rfl

/-- A nonempty chunk is the channel-swapped copy of an in-bounds 4-byte
sample: output byte 0 is source byte 2, byte 1 is source byte 1, byte 2 is
source byte 0, byte 3 is source byte 3. -/
theorem pixelChunk_swap (d : ℕ) (original : List ℕ)
    (ow cx cy w h xs ys x y : ℕ)
    (hne : pixelChunk d original ow cx cy w h xs ys x y ≠ []) :
    ∃ i, ∃ hlt : i + 3 < original.length,
      pixelChunk d original ow cx cy w h xs ys x y =
        [original[i + 2], original[i + 1], original[i], original[i + 3]] := by
  simp only [pixelChunk] at hne ⊢
  split_ifs at hne ⊢ with h1 h2
  · refine ⟨((cy + y * ys) % u32Mod * ow + (cx + x * xs) % u32Mod) * 4 % u32Mod,
      h2, ?_⟩
    simp only [List.cons.injEq, and_true]
    exact ⟨List.getD_eq_getElem _ _ (by omega), List.getD_eq_getElem _ _ (by omega),
      List.getD_eq_getElem _ _ (by omega), List.getD_eq_getElem _ _ (by omega)⟩
  · exact absurd rfl hne
  · exact absurd rfl hne

/-- Flattening `n` blocks of length at most `c` yields at most `n * c`
elements. -/
theorem flatten_map_length_le (f : ℕ → List ℕ) (n c : ℕ)
    (h : ∀ x, (f x).length ≤ c) :
    (((List.range n).map f).flatten).length ≤ n * c := by
  rw [List.length_flatten, List.map_map]
  calc ((List.range n).map (fun x => (f x).length)).sum
      ≤ ((List.range n).map (fun x => (f x).length)).length • c := by
        refine List.sum_le_card_nsmul _ _ ?_
        intro b hb
        obtain ⟨a, _, rfl⟩ := List.mem_map.mp hb
        exact h a
    _ = n * c := by simp [smul_eq_mul]

/-- The transform output never exceeds `4` bytes per destination pixel of
the `nw × nh` grid. -/
theorem imageBytes_length_le (d : ℕ) (original : List ℕ)
    (ow cx cy w h xs ys nw nh : ℕ) :
    (imageBytes d original ow cx cy w h xs ys nw nh).length ≤ nw * nh * 4 := by
  unfold imageBytes
  calc (((List.range nh).map _).flatten).length ≤ nh * (nw * 4) := by
        refine flatten_map_length_le _ _ _ ?_
        intro y
        exact flatten_map_length_le _ _ _ (fun x => pixelChunk_length_le _ _ _ _ _ _ _ _ _ _ _)
    _ = nw * nh * 4 := by ring

/-- The whole transform is independent of the junk byte: no out-of-bounds
read influences the output. -/
theorem processImageD_d_irrel (d₁ d₂ : ℕ) (original : List ℕ)
    (ow cx cy w h s : ℕ) :
    processImageD d₁ original ow cx cy w h s =
      processImageD d₂ original ow cx cy w h s := by
  unfold processImageD
  split_ifs with hs
  · rfl
  · simp only [pixelChunk_d_irrel d₁ d₂]

/-! ## Correctness of the binary32 step computation on small inputs -/

/-- Rounding an exact integer quotient returns it. -/
theorem rneN_exact (a b : ℕ) (hb : 0 < b) (h : b ∣ a) : rneN a b = a / b := by
  obtain ⟨c, rfl⟩ := h
  simp only [rneN, Nat.mul_mod_right]
  simp [hb]

/-- Round-to-nearest lands within half a unit of the exact quotient. -/
theorem rneN_err (a b : ℕ) (hb : 0 < b) :
    |(rneN a b : ℚ) - a / b| ≤ 1 / 2 := by
  have hbq : (0 : ℚ) < b := by exact_mod_cast hb
  have hrb : a % b < b := Nat.mod_lt _ hb
  have hx : (a : ℚ) / b = (a / b : ℕ) + (a % b : ℕ) / b := by
    have hsplit : (a : ℚ) = (b : ℚ) * ((a / b : ℕ) : ℚ) + ((a % b : ℕ) : ℚ) := by
      exact_mod_cast (Nat.div_add_mod a b).symm
    rw [hsplit, add_div, mul_comm (b : ℚ) _, mul_div_cancel_right₀ _ hbq.ne.symm]
  have ht0 : (0 : ℚ) ≤ (a % b : ℕ) / b := by positivity
  have ht1 : ((a % b : ℕ) : ℚ) / b ≤ 1 := by
    rw [div_le_one hbq]; exact_mod_cast hrb.le
  simp only [rneN]
  split_ifs with h1 h2 h3
  · have ht : ((a % b : ℕ) : ℚ) / b ≤ 1 / 2 := by
      rw [div_le_div_iff₀ hbq (by norm_num)]
      exact_mod_cast (by omega : (a % b) * 2 ≤ 1 * b)
    rw [hx, show ((a / b : ℕ) : ℚ) - ((a / b : ℕ) + (a % b : ℕ) / b)
        = -((a % b : ℕ) / b) by ring, abs_neg, abs_of_nonneg ht0]
    exact ht
  · have ht : 1 / 2 ≤ ((a % b : ℕ) : ℚ) / b := by
      rw [div_le_div_iff₀ (by norm_num) hbq]
      exact_mod_cast (by omega : 1 * b ≤ (a % b) * 2)
    rw [hx]
    push_cast
    rw [show ((a / b : ℕ) : ℚ) + 1 - ((a / b : ℕ) + (a % b : ℕ) / b)
        = 1 - (a % b : ℕ) / b by ring, abs_of_nonneg (by linarith)]
    linarith
  · have htie : ((a % b : ℕ) : ℚ) / b = 1 / 2 := by
      rw [div_eq_div_iff hbq.ne.symm (by norm_num)]
      exact_mod_cast (by omega : (a % b) * 2 = 1 * b)
    rw [hx, htie, show ((a / b : ℕ) : ℚ) - ((a / b : ℕ) + 1 / 2) = -(1 / 2) by ring,
      abs_neg, abs_of_nonneg (by norm_num)]
  · have htie : ((a % b : ℕ) : ℚ) / b = 1 / 2 := by
      rw [div_eq_div_iff hbq.ne.symm (by norm_num)]
      exact_mod_cast (by omega : (a % b) * 2 = 1 * b)
    rw [hx, htie]
    push_cast
    rw [show ((a / b : ℕ) : ℚ) + 1 - ((a / b : ℕ) + 1 / 2) = 1 / 2 by ring,
      abs_of_nonneg (by norm_num)]

/-- The scanned exponent never overshoots: `2 ^ expOfN a b * b ≤ a`
whenever the quotient is at least one. -/
theorem expOfN_le (a b : ℕ) (hba : b ≤ a) : 2 ^ expOfN a b * b ≤ a := by
  have aux : ∀ (l : List ℕ) (acc : ℕ), 2 ^ acc * b ≤ a →
      2 ^ (l.foldl (fun acc e => if 2 ^ e * b ≤ a then e else acc) acc) * b ≤ a := by
    intro l
    induction l with
    | nil => intro acc h; exact h
    | cons e l ih =>
      intro acc h
      simp only [List.foldl_cons]
      by_cases he : 2 ^ e * b ≤ a
      · exact ih _ (by simp [he])
      · exact ih _ (by simpa [he] using h)
  exact aux _ 0 (by simpa using hba)

/-- Round-to-nearest is invariant under scaling numerator and denominator. -/
theorem rneN_scale (a b c : ℕ) (hc : 0 < c) :
    rneN (a * c) (b * c) = rneN a b := by
  simp only [rneN, Nat.mul_div_mul_right _ _ hc, Nat.mul_mod_mul_right]
  have h1 : (2 * (a % b * c) < b * c) = (2 * (a % b) < b) := by
    rw [← Nat.mul_assoc]
    exact propext (Nat.mul_lt_mul_right hc)
  have h2 : (b * c < 2 * (a % b * c)) = (b < 2 * (a % b)) := by
    rw [← Nat.mul_assoc]
    exact propext (Nat.mul_lt_mul_right hc)
  simp only [h1, h2]

/-- The binade exponent is invariant under scaling numerator and
denominator. -/
theorem expOfN_scale (a b c : ℕ) (hc : 0 < c) :
    expOfN (a * c) (b * c) = expOfN a b := by
  unfold expOfN
  congr 1
  funext acc e
  have : (2 ^ e * (b * c) ≤ a * c) = (2 ^ e * b ≤ a) := by
    rw [← Nat.mul_assoc]
    exact propext ⟨fun h => Nat.le_of_mul_le_mul_right h hc,
      fun h => Nat.mul_le_mul_right c h⟩
  simp only [this]

/-- Conversion of a natural below `2 ^ 24` to binary32 is exact. -/
theorem round32N_nat (n : ℕ) (h : n < 2 ^ 24) :
    round32N n 1 = (n * 2 ^ 23, 2 ^ 23) := by
  rcases Nat.eq_zero_or_pos n with rfl | hn
  · decide
  · have he := expOfN_le n 1 (by omega)
    rw [Nat.mul_one] at he
    have he23 : expOfN n 1 ≤ 23 := by
      by_contra hgt
      push_neg at hgt
      have : 2 ^ 24 ≤ 2 ^ expOfN n 1 := Nat.pow_le_pow_right (by norm_num) hgt
      omega
    have hdvd : 2 ^ expOfN n 1 ∣ n * 2 ^ 23 :=
      Dvd.dvd.mul_left (pow_dvd_pow 2 he23) n
    simp only [round32N]
    rw [Nat.one_mul, rneN_exact _ _ (Nat.pos_pow_of_pos _ (by norm_num)) hdvd,
      Nat.div_mul_cancel hdvd]

/-- The value `natCeilDiv a b` is the rational ceiling of the quotient. -/
theorem natCeilDiv_cast (a b : ℕ) (hb : 0 < b) :
    (natCeilDiv a b : ℤ) = ⌈(a : ℚ) / b⌉ := by
  have hbq : (0 : ℚ) < b := by exact_mod_cast hb
  set c := (a + b - 1) / b with hc
  have hdm : b * c + (a + b - 1) % b = a + b - 1 := Nat.div_add_mod (a + b - 1) b
  have hmlt : (a + b - 1) % b < b := Nat.mod_lt _ hb
  have hcomm : c * b = b * c := Nat.mul_comm c b
  have hub : a ≤ c * b := by omega
  have hlt : c * b < a + b := by omega
  have hceil : natCeilDiv a b = c := rfl
  symm
  rw [hceil, Int.ceil_eq_iff]
  constructor
  · rw [lt_div_iff₀ hbq]
    have hq : ((c * b : ℕ) : ℚ) < (a : ℚ) + b := by exact_mod_cast hlt
    push_cast at hq ⊢
    nlinarith
  · rw [div_le_iff₀ hbq]
    push_cast
    exact_mod_cast hub

/-- Binary32 rounding is invariant under scaling the fraction. -/
theorem round32N_scale (a b c : ℕ) (hc : 0 < c) :
    round32N (a * c) (b * c) = round32N a b := by
  simp only [round32N, expOfN_scale a b c hc]
  have h1 : a * c * 2 ^ 23 = a * 2 ^ 23 * c := by ring
  have h2 : b * c * 2 ^ expOfN a b = b * 2 ^ expOfN a b * c := by ring
  rw [h1, h2, rneN_scale _ _ _ hc]

/-- Ceiling division of an exact multiple. -/
theorem natCeilDiv_mul (k c : ℕ) (hc : 0 < c) : natCeilDiv (k * c) c = k := by
  unfold natCeilDiv
  rw [Nat.add_sub_assoc hc, Nat.mul_comm k c, Nat.mul_add_div hc,
    Nat.div_eq_of_lt (by omega), Nat.add_zero]

/-- Central analysis: below `2 ^ 24` the binary32 rounding of the
quotient does not move its ceiling. -/
theorem round32_ceil_eq (W nw : ℕ) (h1 : 0 < nw) (h2 : nw ≤ W)
    (h3 : W < 2 ^ 24) :
    natCeilDiv (round32N W nw).1 (2 ^ 23) = natCeilDiv W nw := by
  have hW : 0 < W := lt_of_lt_of_le h1 h2
  have he := expOfN_le W nw h2
  set e := expOfN W nw with hedef
  have hfst : (round32N W nw).1 = rneN (W * 2 ^ 23) (nw * 2 ^ e) * 2 ^ e := rfl
  rw [hfst]
  by_cases hd : nw ∣ W
  · obtain ⟨k, hk⟩ := hd
    have hk1 : 0 < k := by
      rcases Nat.eq_zero_or_pos k with rfl | hk1
      · omega
      · exact hk1
    have h2e : 2 ^ e ≤ k := by
      have hmul : 2 ^ e * nw ≤ nw * k := by rw [← hk]; exact he
      rw [Nat.mul_comm nw k] at hmul
      exact Nat.le_of_mul_le_mul_right hmul h1
    have hkW : k ≤ W := by
      calc k = k * 1 := (Nat.mul_one k).symm
        _ ≤ k * nw := Nat.mul_le_mul_left k h1
        _ = W := by rw [hk, Nat.mul_comm]
    have he23 : e ≤ 23 := by
      by_contra hgt
      push_neg at hgt
      have : 2 ^ 24 ≤ 2 ^ e := Nat.pow_le_pow_right (by norm_num) hgt
      omega
    have hpow : 2 ^ e * 2 ^ (23 - e) = 2 ^ 23 := by
      rw [← pow_add]
      congr 1
      omega
    have hdvd : nw * 2 ^ e ∣ W * 2 ^ 23 :=
      ⟨k * 2 ^ (23 - e), by rw [hk, ← hpow]; ring⟩
    have hm : rneN (W * 2 ^ 23) (nw * 2 ^ e) = k * 2 ^ (23 - e) := by
      rw [rneN_exact _ _ (by positivity) hdvd, hk, ← hpow,
        show nw * k * (2 ^ e * 2 ^ (23 - e)) = nw * 2 ^ e * (k * 2 ^ (23 - e)) by ring,
        Nat.mul_div_cancel_left _ (by positivity)]
    have hk23 : k * 2 ^ (23 - e) * 2 ^ e = k * 2 ^ 23 := by
      rw [mul_assoc, mul_comm (2 ^ (23 - e)) (2 ^ e), hpow]
    rw [hm, hk23, natCeilDiv_mul _ _ (by positivity), hk, Nat.mul_comm nw k,
      natCeilDiv_mul _ _ h1]
  · have hnq : (0 : ℚ) < nw := by exact_mod_cast h1
    have hbpos : 0 < nw * 2 ^ e := by positivity
    have herr := rneN_err (W * 2 ^ 23) (nw * 2 ^ e) hbpos
    set m := rneN (W * 2 ^ 23) (nw * 2 ^ e) with hm
    set x : ℚ := (W : ℚ) / nw with hx
    set ρ : ℚ := (m : ℚ) * 2 ^ e / 2 ^ 23 with hρ
    have hx1 : (1 : ℚ) ≤ x := by
      rw [hx, le_div_iff₀ hnq, one_mul]
      exact_mod_cast h2
    have hρx : |ρ - x| ≤ (2 : ℚ) ^ e / 2 ^ 24 := by
      have hsplit : ρ - x
          = ((m : ℚ) - ((W * 2 ^ 23 : ℕ) : ℚ) / ((nw * 2 ^ e : ℕ) : ℚ))
            * (2 ^ e / 2 ^ 23) := by
        rw [hρ, hx]
        push_cast
        field_simp
        ring
      rw [hsplit, abs_mul, abs_of_pos (by positivity : (0 : ℚ) < 2 ^ e / 2 ^ 23)]
      calc |(m : ℚ) - ((W * 2 ^ 23 : ℕ) : ℚ) / ((nw * 2 ^ e : ℕ) : ℚ)|
            * (2 ^ e / 2 ^ 23)
          ≤ (1 / 2) * (2 ^ e / 2 ^ 23) :=
            mul_le_mul_of_nonneg_right herr (by positivity)
        _ = 2 ^ e / 2 ^ 24 := by ring
    have hex : (2 : ℚ) ^ e ≤ x := by
      rw [hx, le_div_iff₀ hnq]
      exact_mod_cast he
    have herrlt : |ρ - x| < 1 / nw := by
      have h24 : x / 2 ^ 24 < 1 / nw := by
        rw [div_lt_div_iff₀ (by positivity) hnq, hx,
          div_mul_eq_mul_div, div_lt_iff₀ hnq]
        have hW24 : (W : ℚ) < 2 ^ 24 := by exact_mod_cast h3
        nlinarith
      calc |ρ - x| ≤ 2 ^ e / 2 ^ 24 := hρx
        _ ≤ x / 2 ^ 24 := by gcongr
        _ < 1 / nw := h24
    set q : ℤ := ⌈x⌉ with hq
    have hxltq : x < q := by
      rcases lt_or_eq_of_le (Int.le_ceil x) with h | h
      · exact h
      · exfalso
        apply hd
        have hq0 : 0 ≤ q := Int.ceil_nonneg (by linarith)
        rw [← hq] at h
        rw [hx] at h
        have hWq2 : (W : ℚ) = (q : ℚ) * nw := (div_eq_iff hnq.ne.symm).mp h
        obtain ⟨qn, hqn⟩ : ∃ qn : ℕ, q = qn := ⟨q.toNat, (Int.toNat_of_nonneg hq0).symm⟩
        rw [hqn] at hWq2
        have hWn : W = qn * nw := by exact_mod_cast hWq2
        exact ⟨qn, by rw [hWn, Nat.mul_comm]⟩
    have hq1 : 1 / (nw : ℚ) ≤ (q : ℚ) - x := by
      have hZ : (W : ℤ) + 1 ≤ q * nw := by
        have hlt : (W : ℚ) < (q : ℚ) * nw := by
          rw [hx, div_lt_iff₀ hnq] at hxltq
          exact hxltq
        have : (W : ℤ) < q * nw := by exact_mod_cast hlt
        omega
      have heq : (q : ℚ) - x = ((q * nw - W : ℤ) : ℚ) / nw := by
        rw [hx]
        push_cast
        field_simp
      rw [heq]
      gcongr
      · have hZ1 : (1 : ℤ) ≤ q * nw - W := by omega
        exact_mod_cast hZ1
    have hq2 : 1 / (nw : ℚ) ≤ x - ((q : ℚ) - 1) := by
      have hlt2 : (q : ℚ) - 1 < x := by
        have := Int.ceil_lt_add_one x
        rw [← hq] at this
        linarith
      have hZ2 : (q - 1) * nw + 1 ≤ (W : ℤ) := by
        have hlt3 : ((q : ℚ) - 1) * nw < W := by
          rw [hx, lt_div_iff₀ hnq] at hlt2
          exact hlt2
        have : (q - 1) * (nw : ℤ) < W := by exact_mod_cast hlt3
        omega
      have heq2 : x - ((q : ℚ) - 1) = ((W - (q - 1) * nw : ℤ) : ℚ) / nw := by
        rw [hx]
        push_cast
        field_simp
        ring
      rw [heq2]
      gcongr
      · have hZ3 : (1 : ℤ) ≤ W - (q - 1) * nw := by omega
        exact_mod_cast hZ3
    have hceilρ : ⌈ρ⌉ = q := by
      rw [Int.ceil_eq_iff]
      obtain ⟨ha, hb⟩ := abs_lt.mp herrlt
      constructor
      · linarith
      · linarith
    have hL := natCeilDiv_cast (m * 2 ^ e) (2 ^ 23) (by positivity)
    have hR := natCeilDiv_cast W nw h1
    have hcast : ((m * 2 ^ e : ℕ) : ℚ) / ((2 ^ 23 : ℕ) : ℚ) = ρ := by
      rw [hρ]
      push_cast
      ring
    have hfinal : (natCeilDiv (m * 2 ^ e) (2 ^ 23) : ℤ) = (natCeilDiv W nw : ℤ) := by
      rw [hL, hR, hcast, hceilρ, ← hx, ← hq]
    exact_mod_cast hfinal

/-- Below `2 ^ 24` the f32 step computation of the source agrees with the
exact integer ceiling `ceil(W / nw)`. -/
theorem ceilDivF32_correct (W nw : ℕ) (h1 : 0 < nw) (h2 : nw ≤ W)
    (h3 : W < 2 ^ 24) : ceilDivF32 W nw = natCeilDiv W nw := by
  have hnw24 : nw < 2 ^ 24 := lt_of_le_of_lt h2 h3
  unfold ceilDivF32
  rw [if_neg h1.ne.symm]
  simp only [round32N_nat W h3, round32N_nat nw hnw24]
  have hr : round32N (W * 2 ^ 23 * 2 ^ 23) (2 ^ 23 * (nw * 2 ^ 23))
      = round32N W nw := by
    have e1 : W * 2 ^ 23 * 2 ^ 23 = W * 2 ^ 46 := by ring
    have e2 : 2 ^ 23 * (nw * 2 ^ 23) = nw * 2 ^ 46 := by ring
    rw [e1, e2, round32N_scale _ _ _ (by positivity)]
  rw [hr]
  have hsnd : (round32N W nw).2 = 2 ^ 23 := rfl
  rw [hsnd]
  have hdefeq : ((round32N W nw).1 + 2 ^ 23 - 1) / 2 ^ 23
      = natCeilDiv (round32N W nw).1 (2 ^ 23) := rfl
  rw [hdefeq, round32_ceil_eq W nw h1 h2 h3]
  refine Nat.min_eq_left ?_
  have hbound : natCeilDiv W nw ≤ W := by
    unfold natCeilDiv
    rw [Nat.div_le_iff_le_mul_add_pred h1]
    have hWn : W ≤ nw * W := Nat.le_mul_of_pos_left W h1
    omega
  have : (4294967295 : ℕ) = u32Mod - 1 := rfl
  omega

/-! ## Loop-level lemmas -/

/-- The state carried out of a tick, whatever the control outcome. -/
def tickState : TickResult → LoopState
  | .next s => s
  | .exit s => s
  | .fail s => s

/-- Canonical form of a successful frame tick: the store receives the
processed bytes and the `floor(width / 4)` / `floor(height / 4)`
dimensions, the frame counter advances modulo `2 ^ 32`, and the fps
fields update according to the one-second window. -/
theorem captureTick_frame (s : LoopState) (raw : List ℕ) (dw : ℕ)
    (posx posy : ℤ) (w h now : ℕ) :
    captureTick s (.frame raw dw (some (posx, posy, w, h)) now) =
      .next { frame_counter := (s.frame_counter + 1) % u32Mod,
              fps_counter := if 1 ≤ now - s.last_second then 0
                else (s.fps_counter + 1) % u32Mod,
              last_second := if 1 ≤ now - s.last_second then now
                else s.last_second,
              buffer :=
                { data := (process_image raw dw (toU32 posx) (toU32 posy)
                    w h scaleFactorConst).getD []
                  width := w / scaleFactorConst
                  height := h / scaleFactorConst
                  fps := if 1 ≤ now - s.last_second then
                      (s.fps_counter + 1) % u32Mod
                    else s.buffer.fps } } := by
  simp only [captureTick]
  split_ifs with hsec <;> simp [hsec]

/-- A trace whose every tick keeps the loop running, followed by a fatal
acquire failure, ends the loop by `break` without touching the state. -/
theorem runCapture_append_fatal (s : LoopState) (ts : List TickInput)
    (h : (runCapture s ts).2 = none) :
    runCapture s (ts ++ [.acquireFail true]) = ((runCapture s ts).1, some true) := by
  induction ts generalizing s with
  | nil => simp [runCapture, captureTick]
  | cons t rest ih =>
    simp only [runCapture, List.cons_append] at h ⊢
    rcases hcap : captureTick s t with s2 | s2 | s2 <;> simp [hcap] at h ⊢
    · exact ih s2 h

/-! ## Claim theorems -/

/-- C1: for every sampled source pixel that the transformer copies, the
four output bytes swap the first and third channels of the source's
4-byte sample and pass the other two through unchanged: output byte 0 is
source byte 2, output byte 1 is source byte 1, output byte 2 is source
byte 0, output byte 3 is source byte 3.  The transform output is the
row-major concatenation of these per-pixel chunks, and every nonempty
chunk is such a swapped in-bounds sample. -/
theorem c1_channel_swap (original : List ℕ) (ow cx cy w h s : ℕ)
    (hs : s ≠ 0) :
    process_image original ow cx cy w h s =
      some (imageBytes 0 original ow cx cy w h
        (ceilDivF32 w (w / s)) (ceilDivF32 h (h / s)) (w / s) (h / s)) ∧
    ∀ x y, pixelChunk 0 original ow cx cy w h
        (ceilDivF32 w (w / s)) (ceilDivF32 h (h / s)) x y ≠ [] →
      ∃ i, ∃ hlt : i + 3 < original.length,
        pixelChunk 0 original ow cx cy w h
          (ceilDivF32 w (w / s)) (ceilDivF32 h (h / s)) x y =
          [original[i + 2], original[i + 1], original[i], original[i + 3]] :=
  ⟨processImageD_eq_imageBytes 0 original ow cx cy w h s hs,
   fun x y hne => pixelChunk_swap 0 original ow cx cy w h _ _ x y hne⟩

/-- Witness for C1 on a concrete 4×4 source image. -/
theorem c1_channel_swap_witness :
    (2 : ℕ) ≠ 0 ∧
    process_image (List.range 64) 4 0 0 4 4 2 =
      some (imageBytes 0 (List.range 64) 4 0 0 4 4
        (ceilDivF32 4 (4 / 2)) (ceilDivF32 4 (4 / 2)) (4 / 2) (4 / 2)) :=
  ⟨by decide, (c1_channel_swap (List.range 64) 4 0 0 4 4 2 (by decide)).1⟩

/-- C2: for every region with width `W`, height `H` and scale `s ≥ 1` the
transform's destination grid is `floor(W/s) × floor(H/s)`, and the width
and height that the loop stores alongside the processed bytes are these
same floor-divided values (the loop runs with `s = 4`). -/
theorem c2_dimensions (original : List ℕ) (ow cx cy W H s : ℕ)
    (hs : 1 ≤ s) :
    process_image original ow cx cy W H s =
      some (imageBytes 0 original ow cx cy W H
        (ceilDivF32 W (W / s)) (ceilDivF32 H (H / s)) (W / s) (H / s)) ∧
    ∀ (st : LoopState) (raw : List ℕ) (dw : ℕ) (posx posy : ℤ) (now : ℕ),
      ∃ s2, captureTick st (.frame raw dw (some (posx, posy, W, H)) now)
          = .next s2 ∧
        s2.buffer.width = W / 4 ∧ s2.buffer.height = H / 4 ∧
        s2.buffer.data =
          (process_image raw dw (toU32 posx) (toU32 posy) W H 4).getD [] := by
  constructor
  · exact processImageD_eq_imageBytes 0 original ow cx cy W H s (by omega)
  · intro st raw dw posx posy now
    exact ⟨_, captureTick_frame st raw dw posx posy W H now, rfl, rfl, rfl⟩

/-- Witness for C2 at region 10×10, scale 4 (output grid 2×2, store 2×2). -/
theorem c2_dimensions_witness :
    (1 : ℕ) ≤ 4 ∧
    process_image [] 16 0 0 10 10 4 =
      some (imageBytes 0 [] 16 0 0 10 10
        (ceilDivF32 10 (10 / 4)) (ceilDivF32 10 (10 / 4)) (10 / 4) (10 / 4)) :=
  ⟨by decide, (c2_dimensions [] 16 0 0 10 10 4 (by decide)).1⟩

/-- C3 fails on the code: calling the transformer with scale = 0 reaches
the integer division `crop_width / scale_factor` with divisor zero, which
panics in Rust (modelled as `none`); no `InvalidScaleFactor` error value
is ever returned, so the "returns InvalidScaleFactor, does not crash"
part of the claim is false at this input. -/
theorem c3_counterexample :
    process_image (List.replicate 16 7) 2 0 0 2 2 0 = none := by decide

/-- C3 amended: for every raw buffer and region, calling the transformer
with scale = 0 panics on the division by zero instead of returning an
error value; since the call never returns, the FrameStore is not
written. -/
theorem c3_scale_zero_panics (original : List ℕ) (ow cx cy w h : ℕ) :
    process_image original ow cx cy w h 0 = none := rfl

/-- C5: for every input with scale ≥ 1 the processed frame is exactly the
row-major concatenation of per-pixel chunks over the
`floor(W/s) × floor(H/s)` destination grid — a destination pixel whose
source sample fails the region-bound or buffer-bound guard contributes
the empty chunk (no padding bytes) — and its total length is at most
`width * height * 4`. -/
theorem c5_length_and_order (original : List ℕ) (ow cx cy W H s : ℕ)
    (hs : 1 ≤ s) :
    ∃ l, process_image original ow cx cy W H s = some l ∧
      l = imageBytes 0 original ow cx cy W H
        (ceilDivF32 W (W / s)) (ceilDivF32 H (H / s)) (W / s) (H / s) ∧
      l.length ≤ (W / s) * (H / s) * 4 :=
  ⟨imageBytes 0 original ow cx cy W H
      (ceilDivF32 W (W / s)) (ceilDivF32 H (H / s)) (W / s) (H / s),
   processImageD_eq_imageBytes 0 original ow cx cy W H s (by omega), rfl,
   imageBytes_length_le 0 original ow cx cy W H
      (ceilDivF32 W (W / s)) (ceilDivF32 H (H / s)) (W / s) (H / s)⟩

/-- Witness for C5 on a concrete partially-out-of-bounds region. -/
theorem c5_length_and_order_witness :
    (1 : ℕ) ≤ 4 ∧
    ∃ l, process_image (List.range 64) 4 2 2 8 8 4 = some l ∧
      l = imageBytes 0 (List.range 64) 4 2 2 8 8
        (ceilDivF32 8 (8 / 4)) (ceilDivF32 8 (8 / 4)) (8 / 4) (8 / 4) ∧
      l.length ≤ (8 / 4) * (8 / 4) * 4 :=
  ⟨by decide, c5_length_and_order (List.range 64) 4 2 2 8 8 4 (by decide)⟩

/-- C6 fails on the code: the sampling steps are computed in `f32`, whose
24-bit significand cannot represent every `u32` width.  For the region
width 33554433 (= 2^25 + 1) at scale 4 the code computes
`(33554433 as f32) = 33554432.0`, divides by the exactly representable
`new_width = 8388608`, obtains exactly `4.0`, and ceils to 4 — but the
exact integer ceiling `ceil(33554433 / 8388608)` is 5. -/
theorem c6_counterexample :
    ceilDivF32 33554433 (33554433 / 4) = 4 ∧
    natCeilDiv 33554433 (33554433 / 4) = 5 := by
  decide

/-- C6 amended: for every region whose width and height are below `2^24`
(so that the `f32` conversions are exact) and whose scaled dimensions are
positive, the sampling steps computed through `f32` equal the exact
integer ceilings `ceil(W / new_width)` and `ceil(H / new_height)`; in
particular for region (0,0,10,10) at scale 4 the output grid is 2×2 with
both steps 5 (see the witness). -/
theorem c6_steps_exact (W H s : ℕ) (_hs : 0 < s) (hw : 0 < W / s)
    (hh : 0 < H / s) (hW : W < 2 ^ 24) (hH : H < 2 ^ 24) :
    ceilDivF32 W (W / s) = natCeilDiv W (W / s) ∧
    ceilDivF32 H (H / s) = natCeilDiv H (H / s) :=
  ⟨ceilDivF32_correct W (W / s) hw (Nat.div_le_self W s) hW,
   ceilDivF32_correct H (H / s) hh (Nat.div_le_self H s) hH⟩

/-- Witness for C6 (amended) at region (0,0,10,10), scale 4: grid 2×2 and
both steps equal `ceil(10/2) = 5`. -/
theorem c6_steps_exact_witness :
    (0 : ℕ) < 4 ∧ (0 : ℕ) < 10 / 4 ∧ (10 : ℕ) < 2 ^ 24 ∧ (10 : ℕ) / 4 = 2 ∧
    ceilDivF32 10 (10 / 4) = natCeilDiv 10 (10 / 4) ∧
    natCeilDiv 10 (10 / 4) = 5 :=
  ⟨by decide, by decide, by decide, by decide,
   (c6_steps_exact 10 10 4 (by decide) (by decide) (by decide) (by decide)
      (by decide)).1, by decide⟩

/-- C10: for every buffer and all crop/scale parameters with scale ≥ 1
the transform is total (the panic branch is unreachable), its result does
not depend on the value an out-of-bounds read would produce (so no such
read influences the output), and every copied chunk reads exactly the
four bytes of one sample whose last index is strictly below
`original.len()` — the `src_idx + 3 < original.len()` guard keeps every
slice access in bounds. -/
theorem c10_memory_safety (d : ℕ) (original : List ℕ) (ow cx cy W H s : ℕ)
    (hs : 1 ≤ s) :
    (∃ l, process_image original ow cx cy W H s = some l) ∧
    processImageD d original ow cx cy W H s =
      process_image original ow cx cy W H s ∧
    ∀ x y, pixelChunk d original ow cx cy W H
        (ceilDivF32 W (W / s)) (ceilDivF32 H (H / s)) x y ≠ [] →
      ∃ i, ∃ hlt : i + 3 < original.length,
        pixelChunk d original ow cx cy W H
          (ceilDivF32 W (W / s)) (ceilDivF32 H (H / s)) x y =
          [original[i + 2], original[i + 1], original[i], original[i + 3]] :=
  ⟨⟨_, processImageD_eq_imageBytes 0 original ow cx cy W H s (by omega)⟩,
   processImageD_d_irrel d 0 original ow cx cy W H s,
   fun x y hne => pixelChunk_swap d original ow cx cy W H _ _ x y hne⟩

/-- Witness for C10 with a nonzero junk byte on a concrete image. -/
theorem c10_memory_safety_witness :
    (1 : ℕ) ≤ 2 ∧
    processImageD 255 (List.range 64) 4 0 0 4 4 2 =
      process_image (List.range 64) 4 0 0 4 4 2 :=
  ⟨by decide, (c10_memory_safety 255 (List.range 64) 4 0 0 4 4 2 (by decide)).2.1⟩

/-- C4 fails on the code: `get_frame_data` rejects a stored frame whose
data is empty or whose dimensions are zero even after a write has
happened.  Concretely, a successful capture tick over an empty raw buffer
writes the store (8×8 region, scale 4, so stored dimensions 2×2 with no
bytes copied), yet the query still returns the error. -/
theorem c4_counterexample :
    (tickState (captureTick (initLoopState 0)
        (.frame [] 16 (some (0, 0, 8, 8)) 0))).buffer ≠ initFrameBuffer ∧
    get_frame_data (tickState (captureTick (initLoopState 0)
        (.frame [] 16 (some (0, 0, 8, 8)) 0))).buffer =
      .error "No valid frame data available." := by
  exact ⟨by decide, rfl⟩

/-- C4 amended: the query returns Empty exactly when the stored data is
empty or a stored dimension is zero — which holds before any write, but
can also hold after a write of an empty or zero-dimension frame.
Otherwise it returns exactly the stored bytes, width, height and fps,
however stale, and only a successful frame tick modifies the store. -/
theorem c4_store_read (b : FrameBuffer) :
    get_frame_data initFrameBuffer = .error "No valid frame data available." ∧
    (b.data ≠ [] → 0 < b.width → 0 < b.height →
      get_frame_data b = .ok (b.data, b.width, b.height, b.fps)) ∧
    ((b.data = [] ∨ b.width = 0 ∨ b.height = 0) →
      get_frame_data b = .error "No valid frame data available.") ∧
    (∀ (s : LoopState) (fatal : Bool),
      (tickState (captureTick s (.acquireFail fatal))).buffer = s.buffer) ∧
    (∀ s : LoopState, (tickState (captureTick s .texReadFail)).buffer = s.buffer) ∧
    (∀ (s : LoopState) (raw : List ℕ) (dw now : ℕ),
      (tickState (captureTick s (.frame raw dw none now))).buffer = s.buffer) := by
  refine ⟨rfl, ?_, ?_, ?_, fun s => rfl, fun s raw dw now => rfl⟩
  · intro h1 h2 h3
    unfold get_frame_data
    rw [if_pos ⟨h1, h2, h3⟩]
  · intro hbad
    unfold get_frame_data
    rw [if_neg]
    rintro ⟨hne, hw, hh⟩
    rcases hbad with h | h | h
    · exact hne h
    · omega
    · omega
  · intro s fatal
    cases fatal <;> rfl

/-- Witness for C4 (amended): a valid stored frame is returned verbatim. -/
theorem c4_store_read_witness :
    get_frame_data (FrameBuffer.mk [9, 9, 9, 9] 1 1 7) =
      .ok ([9, 9, 9, 9], 1, 1, 7) :=
  (c4_store_read (FrameBuffer.mk [9, 9, 9, 9] 1 1 7)).2.1
    (by decide) (by decide) (by decide)

/-- C7 fails on the code as universally stated: after a successful write
of an empty frame (window 2×2 is smaller than the scale factor, so the
stored frame has zero dimensions and no bytes) followed by a fatal
acquire failure, the loop does break out, but `get_frame` returns the
error rather than the frame from write N. -/
theorem c7_counterexample :
    (runCapture (initLoopState 0)
        [.frame [] 16 (some (0, 0, 2, 2)) 0, .acquireFail true]).2 = some true ∧
    get_frame_data (runCapture (initLoopState 0)
        [.frame [] 16 (some (0, 0, 2, 2)) 0, .acquireFail true]).1.buffer =
      .error "No valid frame data available." := ⟨rfl, rfl⟩

/-- C7 amended: a fatal acquire failure after any run of ticks that kept
the loop going terminates the loop by `break` and leaves the frame store
byte-for-byte unchanged; a subsequent `get_frame` therefore returns the
contents of the last write — as the stored tuple, not an error — provided
that stored frame is nonempty with positive dimensions. -/
theorem c7_termination_keeps_store (t0 : ℕ) (ts : List TickInput)
    (h : (runCapture (initLoopState t0) ts).2 = none) :
    (runCapture (initLoopState t0) (ts ++ [.acquireFail true])).2 = some true ∧
    (runCapture (initLoopState t0) (ts ++ [.acquireFail true])).1.buffer =
      (runCapture (initLoopState t0) ts).1.buffer ∧
    ((runCapture (initLoopState t0) ts).1.buffer.data ≠ [] →
      0 < (runCapture (initLoopState t0) ts).1.buffer.width →
      0 < (runCapture (initLoopState t0) ts).1.buffer.height →
      get_frame_data
          (runCapture (initLoopState t0) (ts ++ [.acquireFail true])).1.buffer =
        .ok ((runCapture (initLoopState t0) ts).1.buffer.data,
          (runCapture (initLoopState t0) ts).1.buffer.width,
          (runCapture (initLoopState t0) ts).1.buffer.height,
          (runCapture (initLoopState t0) ts).1.buffer.fps)) := by
  have hrun := runCapture_append_fatal (initLoopState t0) ts h
  rw [hrun]
  refine ⟨rfl, rfl, ?_⟩
  intro h1 h2 h3
  unfold get_frame_data
  rw [if_pos ⟨h1, h2, h3⟩]

set_option maxRecDepth 10000 in
/-- Witness for C7 (amended): one real write (4×4 window, one pixel
copied), then the fatal failure; the loop breaks with the store intact. -/
theorem c7_termination_keeps_store_witness :
    (runCapture (initLoopState 0)
        [.frame [0, 1, 2, 3] 1 (some (0, 0, 4, 4)) 5]).2 = none ∧
    (runCapture (initLoopState 0)
        ([.frame [0, 1, 2, 3] 1 (some (0, 0, 4, 4)) 5]
          ++ [.acquireFail true])).2 = some true :=
  ⟨by decide,
   (c7_termination_keeps_store 0
      [.frame [0, 1, 2, 3] 1 (some (0, 0, 4, 4)) 5] (by decide)).1⟩

/-- C8: the frame counter advances by exactly one per successful
transform-and-store cycle, does not move on a failed acquisition or a
failed texture read, and wraps from `2^32 - 1` to 0 (the step function is
total, so no error is raised at the wrap). -/
theorem c8_frame_counter (s : LoopState) (raw : List ℕ) (dw : ℕ)
    (posx posy : ℤ) (w h now : ℕ) (fatal : Bool) :
    (∃ s2, captureTick s (.frame raw dw (some (posx, posy, w, h)) now)
        = .next s2 ∧ s2.frame_counter = (s.frame_counter + 1) % u32Mod) ∧
    (tickState (captureTick s (.acquireFail fatal))).frame_counter
      = s.frame_counter ∧
    (tickState (captureTick s .texReadFail)).frame_counter = s.frame_counter ∧
    (s.frame_counter = u32Mod - 1 →
      ∃ s2, captureTick s (.frame raw dw (some (posx, posy, w, h)) now)
          = .next s2 ∧ s2.frame_counter = 0) := by
  refine ⟨⟨_, captureTick_frame s raw dw posx posy w h now, rfl⟩, ?_, rfl, ?_⟩
  · cases fatal <;> rfl
  · intro hmax
    refine ⟨_, captureTick_frame s raw dw posx posy w h now, ?_⟩
    simp only [hmax, u32Mod]

/-- Witness for C8 at the wrap point `2^32 - 1`. -/
theorem c8_frame_counter_witness :
    (u32Mod - 1 = 4294967295) ∧
    ∃ s2, captureTick ⟨u32Mod - 1, 0, 0, initFrameBuffer⟩
        (.frame [] 1 (some (0, 0, 0, 0)) 0) = .next s2 ∧ s2.frame_counter = 0 :=
  ⟨by decide,
   (c8_frame_counter ⟨u32Mod - 1, 0, 0, initFrameBuffer⟩ [] 1 0 0 0 0 0 false).2.2.2
     rfl⟩

/-- C9: every successful write bumps the internal tick counter; the
published FPS value is untouched while less than one second has elapsed
since the last publish, and exactly when at least one second has elapsed
the tick counter (including the current tick) is copied into the
published FPS value, the tick counter restarts from zero and the window
timestamp advances to the current instant. -/
theorem c9_fps_window (s : LoopState) (raw : List ℕ) (dw : ℕ)
    (posx posy : ℤ) (w h now : ℕ) :
    ∃ s2, captureTick s (.frame raw dw (some (posx, posy, w, h)) now)
        = .next s2 ∧
      (now - s.last_second < 1 →
        s2.buffer.fps = s.buffer.fps ∧
        s2.fps_counter = (s.fps_counter + 1) % u32Mod ∧
        s2.last_second = s.last_second) ∧
      (1 ≤ now - s.last_second →
        s2.buffer.fps = (s.fps_counter + 1) % u32Mod ∧
        s2.fps_counter = 0 ∧
        s2.last_second = now) := by
  refine ⟨_, captureTick_frame s raw dw posx posy w h now, ?_, ?_⟩
  · intro hlt
    have hn : ¬ (1 ≤ now - s.last_second) := by omega
    simp [hn]
  · intro hge
    simp [hge]

/-- Witness for C9: a write two seconds into the window publishes the
tick count, resets it and advances the timestamp. -/
theorem c9_fps_window_witness :
    ∃ s2, captureTick (initLoopState 0) (.frame [] 1 (some (0, 0, 0, 0)) 2)
        = .next s2 ∧
      s2.buffer.fps = (0 + 1) % u32Mod ∧ s2.fps_counter = 0 ∧
      s2.last_second = 2 := by
  obtain ⟨s2, hstep, _, hpub⟩ :=
    c9_fps_window (initLoopState 0) [] 1 0 0 0 0 2
  exact ⟨s2, hstep, hpub (by decide)⟩
